import Mathlib

/-!
Verification of the MasterG glossary-locking translation pipeline.

This file gives a shallow embedding of the term-protection subsystem of the
repository (src/backend/proxy/glossary.py) and of the per-unit translation
loops that consume it (src/backend/proxy/indictrans2_server.py), and proves
or refutes the specification claims about them.

Strings are modelled as List Char (Python str is a sequence of code points,
which matches Lean Char lists).  Python string primitives (str.replace,
str.strip, str.split, substring membership, re scanning for the concrete
patterns used by the code) are modelled by executable functions below; each
definition notes the Python construct it embeds.  Python str.lower is
modelled with Char.toLower, which agrees with Python on ASCII; every
glossary term is ASCII and Devanagari has no case, so the model is exact on
the alphabets the program manipulates.

External collaborators are parameters, exactly as the specification draws
the boundary: the translation engine is an oracle of type
List Char -> Option (List Char) (None covers every failure mode: exception,
empty or invalid output), markdown stripping (spec section 1, out of scope)
is a parameter called cleaner, and post_process_translation (spec section 2,
"external: light cleanup") is a parameter called pp.
-/

namespace MasterG

/-- Python whitespace test, restricted to the ASCII whitespace characters
(space, tab, newline, carriage return, vertical tab, form feed).  The
concrete texts handled by the claims use only these. -/
def isWsB (c : Char) : Bool :=
  c == ' ' || c == '\t' || c == '\n' || c == '\r' || c == '\x0b' || c == '\x0c'

/-- Python str.lower, ASCII fragment (Char.toLower lowercases exactly the
basic latin letters; glossary terms are ASCII, Devanagari has no case). -/
def pyLower (s : List Char) : List Char :=
  s.map Char.toLower

/-- Python str.strip with no argument: remove leading and trailing
whitespace. -/
def pyStrip (s : List Char) : List Char :=
  ((s.dropWhile isWsB).reverse.dropWhile isWsB).reverse

/-- Helper for Python str.split with no argument: the accumulator holds the
current token reversed, so the recursion is structural (hence computable by
the kernel). -/
def splitWsGo : List Char → List Char → List (List Char)
  | [], acc => if acc = [] then [] else [acc.reverse]
  | c :: s, acc =>
    if isWsB c then
      if acc = [] then splitWsGo s [] else acc.reverse :: splitWsGo s []
    else splitWsGo s (c :: acc)

/-- Python str.split with no argument: split on runs of whitespace,
discarding empty pieces. -/
def pySplitWs (s : List Char) : List (List Char) :=
  splitWsGo s []

/-- Python substring membership (the in operator on str).  The empty string
is a substring of everything, as in Python. -/
def isSub (p : List Char) : List Char → Bool
  | [] => p.isPrefixOf []
  | c :: s' => p.isPrefixOf (c :: s') || isSub p s'

/-- Helper for Python str.replace with a nonempty pattern: scanning left to
right; a positive skip counter consumes the remaining characters of a span
that was just replaced, which keeps the recursion structural. -/
def pyReplaceGo (p t : List Char) : List Char → Nat → List Char
  | [], _ => []
  | _ :: s', skip + 1 => pyReplaceGo p t s' skip
  | c :: s', 0 =>
    if p.isPrefixOf (c :: s') then t ++ pyReplaceGo p t s' (p.length - 1)
    else c :: pyReplaceGo p t s' 0

/-- Python str.replace(p, t): replace every occurrence of p, scanning left
to right, non-overlapping.  For empty p Python interleaves t between all
characters (the program only ever calls replace with nonempty patterns). -/
def pyReplace (p t s : List Char) : List Char :=
  if p = [] then t ++ s.foldr (fun c r => c :: (t ++ r)) []
  else pyReplaceGo p t s 0

/-- Python str.replace(p, t, 1): replace only the first occurrence. -/
def pyReplaceFirst (p t : List Char) : List Char → List Char
  | [] => if p = [] then t else []
  | c :: s' =>
    if p ≠ [] ∧ p.isPrefixOf (c :: s') then t ++ (c :: s').drop p.length
    else if p = [] then t ++ c :: s'
    else c :: pyReplaceFirst p t s'

/-- Python dict assignment d[k] = v: an existing key keeps its insertion
position and gets the new value, a fresh key is appended. -/
def dictInsert {α β : Type} [BEq α] (d : List (α × β)) (k : α) (v : β) : List (α × β) :=
  if d.any (fun kv => kv.1 == k) then d.map (fun kv => if kv.1 == k then (k, v) else kv)
  else d ++ [(k, v)]

/-- A Python dict literal built from a sequence of key-value pairs, in
insertion order with later values overriding earlier ones (keys keep their
first position). -/
def pyDict {α β : Type} [BEq α] (l : List (α × β)) : List (α × β) :=
  l.foldl (fun d kv => dictInsert d kv.1 kv.2) []

/-- Python dict lookup d.get(k). -/
def lookupDict {α β : Type} [BEq α] (d : List (α × β)) (k : α) : Option β :=
  (d.find? (fun kv => kv.1 == k)).map (fun kv => kv.2)

/-- Helper for re.finditer on a literal pattern: a positive skip counter
consumes the rest of a span that was just matched, keeping the recursion
structural; pos is the index of the head of the remaining text. -/
def findGo (pat : List Char) : List Char → Nat → Nat → List (Nat × Nat)
  | [], _, _ => []
  | _ :: s', pos, skip + 1 => findGo pat s' (pos + 1) skip
  | c :: s', pos, 0 =>
    if pat ≠ [] ∧ pat.isPrefixOf (c :: s') then
      (pos, pos + pat.length) :: findGo pat s' (pos + 1) (pat.length - 1)
    else findGo pat s' (pos + 1) 0

/-- re.finditer for a literal nonempty pattern on a string: the spans
(start, stop) of the leftmost non-overlapping occurrences, scanning left to
right.  Every pattern the program compiles is re.escape of a nonempty ASCII
glossary term. -/
def findMatchesAux (pat : List Char) (s : List Char) (pos : Nat) : List (Nat × Nat) :=
  findGo pat s pos 0

/-- re.search of the pattern (\d+) on a string: the first maximal run of
ASCII digits, or none. -/
def findDigits : List Char → Option (List Char)
  | [] => none
  | c :: s => if c.isDigit then some (c :: s.takeWhile Char.isDigit) else findDigits s

/-- Python int() on a string of ASCII digits. -/
def natOfDigits (ds : List Char) : Nat :=
  ds.foldl (fun a c => 10 * a + (c.toNat - 48)) 0

/-- Python sep.join(pieces). -/
def joinSeps (sep : List Char) : List (List Char) → List Char
  | [] => []
  | [a] => a
  | a :: b :: rest => a ++ sep ++ joinSeps sep (b :: rest)

/-- The key-value pairs of the ENGLISH_TO_HINDI_GLOSSARY dict literal of
src/backend/proxy/glossary.py lines 10-93, in source order.  The key
"function" appears twice in the literal (lines 70 and 92), exactly as in
the source; dict semantics are applied by pyDict below. -/
def glossaryLiteral : List (String × String) := [
  ("photosynthesis", "प्रकाश संश्लेषण"),
  ("chlorophyll", "क्लोरोफिल"),
  ("carbon dioxide", "कार्बन डाइऑक्साइड"),
  ("oxygen", "ऑक्सीजन"),
  ("glucose", "ग्लूकोज"),
  ("atp", "एटीपी"),
  ("dna", "डीएनए"),
  ("rna", "आरएनए"),
  ("cell", "कोशिका"),
  ("mitochondria", "माइटोकॉन्ड्रिया"),
  ("nucleus", "केंद्रक"),
  ("chromosome", "गुणसूत्र"),
  ("gene", "जीन"),
  ("protein", "प्रोटीन"),
  ("enzyme", "एंजाइम"),
  ("respiration", "श्वसन"),
  ("digestion", "पाचन"),
  ("metabolism", "चयापचय"),
  ("molecule", "अणु"),
  ("atom", "परमाणु"),
  ("element", "तत्व"),
  ("compound", "यौगिक"),
  ("reaction", "अभिक्रिया"),
  ("catalyst", "उत्प्रेरक"),
  ("acid", "अम्ल"),
  ("base", "क्षार"),
  ("salt", "लवण"),
  ("solution", "विलयन"),
  ("mixture", "मिश्रण"),
  ("hydrogen", "हाइड्रोजन"),
  ("nitrogen", "नाइट्रोजन"),
  ("sodium", "सोडियम"),
  ("calcium", "कैल्शियम"),
  ("force", "बल"),
  ("energy", "ऊर्जा"),
  ("velocity", "वेग"),
  ("acceleration", "त्वरण"),
  ("momentum", "संवेग"),
  ("gravity", "गुरुत्वाकर्षण"),
  ("friction", "घर्षण"),
  ("pressure", "दबाव"),
  ("temperature", "तापमान"),
  ("heat", "ऊष्मा"),
  ("light", "प्रकाश"),
  ("sound", "ध्वनि"),
  ("wave", "तरंग"),
  ("electricity", "विद्युत"),
  ("magnetism", "चुंबकत्व"),
  ("equation", "समीकरण"),
  ("formula", "सूत्र"),
  ("variable", "चर"),
  ("constant", "अचर"),
  ("function", "फलन"),
  ("derivative", "अवकलज"),
  ("integral", "समाकलन"),
  ("angle", "कोण"),
  ("triangle", "त्रिभुज"),
  ("circle", "वृत्त"),
  ("square", "वर्ग"),
  ("rectangle", "आयत"),
  ("area", "क्षेत्रफल"),
  ("perimeter", "परिमाप"),
  ("volume", "आयतन"),
  ("definition", "परिभाषा"),
  ("example", "उदाहरण"),
  ("concept", "अवधारणा"),
  ("principle", "सिद्धांत"),
  ("theory", "सिद्धांत"),
  ("law", "नियम"),
  ("process", "प्रक्रिया"),
  ("system", "तंत्र"),
  ("structure", "संरचना"),
  ("function", "कार्य")]

/-- ENGLISH_TO_HINDI_GLOSSARY (glossary.py line 10): the dict built from the
literal.  Its items, in insertion order, are what dict.items() yields. -/
def ENGLISH_TO_HINDI_GLOSSARY : List (String × String) :=
  pyDict glossaryLiteral

/-- HINDI_TO_ENGLISH_GLOSSARY (glossary.py line 96): the reverse-lookup dict
comprehension, v mapped to k for every item k, v of the forward dict. -/
def HINDI_TO_ENGLISH_GLOSSARY : List (String × String) :=
  pyDict (ENGLISH_TO_HINDI_GLOSSARY.map (fun kv => (kv.2, kv.1)))

/-- Stable insertion step for sorting term pairs by descending key length:
an element goes before the first element of strictly smaller or equal...
precisely, x is placed before y exactly when the key of x is at least as
long, so that ties keep the original (insertion) order, as Python sorted
with reverse=True does. -/
def insertDesc (x : String × String) :
    List (String × String) → List (String × String)
  | [] => [x]
  | y :: ys => if y.1.length ≤ x.1.length then x :: y :: ys else y :: insertDesc x ys

/-- sorted(items, key length, reverse=True) of glossary.py line 121: a
stable sort by descending source-term length. -/
def sortTermsDesc (l : List (String × String)) : List (String × String) :=
  l.foldr insertDesc []

/-- The sorted_terms list of extract_and_replace_terms (glossary.py
line 121). -/
def sortedTerms : List (String × String) :=
  sortTermsDesc ENGLISH_TO_HINDI_GLOSSARY

/-- create_placeholder (glossary.py lines 99-103): the f-string SCI{index}
(the term argument is unused in the source as well). -/
def create_placeholder (term : List Char) (index : Nat) : List Char :=
  "SCI".data ++ (Nat.repr index).data

/-- The loop state of extract_and_replace_terms: the lowercase scanning
view, the accumulated term map, the progressively mutated text, and the
next ordinal. -/
structure ExtrState where
  textLower : List Char
  termMap : List (List Char × List Char)
  modified : List Char
  index : Nat

/-- One iteration of the inner match loop of extract_and_replace_terms
(glossary.py lines 130-146) for a single regex match span.  Note that the
span indices come from the match list computed before this loop started,
while the skip check and the splice read the current mutated text: this is
exactly what the Python code does (the spans are not re-based after earlier
replacements of the same term). -/
def stepMatch (eng hin : List Char) (st : ExtrState) (span : Nat × Nat) : ExtrState :=
  if 0 < span.1 ∧
      "SCI".data.isPrefixOf
        ((st.modified.drop (span.1 - 5)).take (span.2 + 5 - (span.1 - 5))) then
    st
  else
    let ph := create_placeholder eng st.index
    let newText := st.modified.take span.1 ++ ph ++ st.modified.drop span.2
    { textLower := pyLower newText
      termMap := dictInsert st.termMap ph hin
      modified := newText
      index := st.index + 1 }

/-- extract_and_replace_terms (glossary.py lines 106-148).  For each
glossary term in descending length order, the matches of the
case-insensitive literal pattern are computed once against the current
lowercase view, then each match is processed by stepMatch. -/
def extract_and_replace_terms (text : List Char) :
    List Char × List (List Char × List Char) :=
  let st := sortedTerms.foldl
    (fun st term =>
      (findMatchesAux (pyLower term.1.data) st.textLower 0).foldl
        (stepMatch term.1.data term.2.data) st)
    { textLower := pyLower text, termMap := [], modified := text, index := 0 }
  (st.modified, st.termMap)

/-- Amount of leading whitespace: the length matched by a greedy star of
whitespace at the head of the text. -/
def wsCount (s : List Char) : Nat :=
  (s.takeWhile isWsB).length

/-- Anchored matching of a regex of the shape lit1 star-ws lit2 star-ws ...
litN against the head of the text, returning the number of characters
consumed.  All patterns the restore code builds are of this shape
(literal segments separated by a greedy whitespace star); since every
segment starts with a non-whitespace character, greedy maximal-munch
matching coincides with full regex matching, so this model is exact. -/
def matchSegs : List (List Char) → List Char → Option Nat
  | [], _ => some 0
  | [seg], s => if seg.isPrefixOf s then some seg.length else none
  | seg :: seg2 :: rest, s =>
    if seg.isPrefixOf s then
      let s1 := s.drop seg.length
      let w := wsCount s1
      (matchSegs (seg2 :: rest) (s1.drop w)).map (fun m => seg.length + w + m)
    else none

/-- re.search for a segment pattern: does it match at some position. -/
def searchSegs (segs : List (List Char)) : List Char → Bool
  | [] => (matchSegs segs []).isSome
  | c :: s' => (matchSegs segs (c :: s')).isSome || searchSegs segs (s' : List Char)

/-- Helper for re.sub on a segment pattern: a positive skip counter
consumes the rest of a span that was just replaced, keeping the recursion
structural. -/
def subGo (segs : List (List Char)) (t : List Char) : List Char → Nat → List Char
  | [], _ => []
  | _ :: s', skip + 1 => subGo segs t s' skip
  | c :: s', 0 =>
    match matchSegs segs (c :: s') with
    | some n =>
      if n = 0 then t ++ c :: subGo segs t s' 0
      else t ++ subGo segs t s' (n - 1)
    | none => c :: subGo segs t s' 0

/-- re.sub for a segment pattern: replace every leftmost non-overlapping
match.  The zero-width case cannot arise for the patterns the program
builds (each has a nonempty first segment); it is given a safe reading to
make the function total. -/
def subSegs (segs : List (List Char)) (t s : List Char) : List Char :=
  subGo segs t s 0

/-- The Devanagari transliteration of the placeholder prefix used by
restore_terms (glossary.py lines 185-198). -/
def transSCI : List Char := "एससीआई".data

/-- The first transliterated pattern of glossary.py line 185: the
transliterated prefix, optional whitespace, then the numeral string. -/
def segsP1 (num : List Char) : List (List Char) := [transSCI, num]

/-- The second transliterated pattern of glossary.py line 186: the spaced
transliteration, with optional whitespace between the syllables and before
the numeral string. -/
def segsP2 (num : List Char) : List (List Char) :=
  ["एस".data, "सी".data, "आई".data, num]

/-- The numeral string interpolated into the patterns: the first digit run
of the placeholder, or the Python literal rendering None of a missing
match object (glossary.py lines 175-176 interpolate num into an f-string,
which renders None as the four characters N o n e). -/
def numStrOf (p : List Char) : List Char :=
  match findDigits p with
  | some ds => ds
  | none => "None".data

/-- The sort key of glossary.py line 171: the integer value of the first
digit run of the placeholder, or 999 when there is none. -/
def sortKey (p : List Char) : Nat :=
  match findDigits p with
  | some ds => natOfDigits ds
  | none => 999

/-- Stable insertion step for the ascending sort by sortKey: an element is
placed before the first element of strictly larger key, and after elements
of equal key that were inserted by later steps of the foldr (which are the
earlier list elements), matching Python stable sorted. -/
def insertAsc (x : List Char × List Char) :
    List (List Char × List Char) → List (List Char × List Char)
  | [] => [x]
  | y :: ys => if sortKey x.1 ≤ sortKey y.1 then x :: y :: ys else y :: insertAsc x ys

/-- The sorted_items list of glossary.py line 171: the term-map items,
stably sorted by ascending ordinal. -/
def sortedItems (m : List (List Char × List Char)) :
    List (List Char × List Char) :=
  m.foldr insertAsc []

/-- The guard of the generic transliterated fallback (glossary.py
line 196): no single-digit-suffixed transliterated token, for a digit
different from the numeral of this entry, occurs in the text. -/
def fallbackGuard (p r : List Char) : Bool :=
  !((List.range 10).any (fun i =>
    !(numStrOf p == (Nat.repr i).data) && isSub (transSCI ++ (Nat.repr i).data) r))

/-- The body of the per-entry restoration loop of restore_terms
(glossary.py lines 173-198): exact placeholder replacement, then the two
numbered transliterated patterns (replacing all matches of the first one
that matches), then the guarded generic fallback replacing only the first
transliterated-prefix occurrence. -/
def restoreEntry (r : List Char) (p tgt : List Char) : List Char :=
  if isSub p r then pyReplace p tgt r
  else if searchSegs (segsP1 (numStrOf p)) r then subSegs (segsP1 (numStrOf p)) tgt r
  else if searchSegs (segsP2 (numStrOf p)) r then subSegs (segsP2 (numStrOf p)) tgt r
  else if isSub transSCI r && fallbackGuard p r then pyReplaceFirst transSCI tgt r
  else r

/-- The exact-match first pass of restore_terms (glossary.py lines
160-161): replace every surviving placeholder token, iterating the term
map in insertion order. -/
def exactPass (t : List Char) (m : List (List Char × List Char)) : List Char :=
  m.foldl (fun r kv => pyReplace kv.1 kv.2 r) t

/-- restore_terms (glossary.py lines 151-200): the exact pass followed by
the per-entry heuristic loop over the items sorted by ascending ordinal. -/
def restore_terms (translated : List Char)
    (m : List (List Char × List Char)) : List Char :=
  (sortedItems m).foldl (fun r kv => restoreEntry r kv.1 kv.2) (exactPass translated m)

/-- Python str.splitlines restricted to the common line boundaries
(newline, carriage return, and the pair); no trailing empty line is
produced for a trailing boundary, as in Python. -/
def pySplitLinesAux (acc : List Char) : List Char → List (List Char)
  | [] => [acc.reverse]
  | '\r' :: '\n' :: rest =>
    acc.reverse :: (if rest = [] then [] else pySplitLinesAux [] rest)
  | '\n' :: rest =>
    acc.reverse :: (if rest = [] then [] else pySplitLinesAux [] rest)
  | '\r' :: rest =>
    acc.reverse :: (if rest = [] then [] else pySplitLinesAux [] rest)
  | c :: rest => pySplitLinesAux (c :: acc) rest

/-- Python str.splitlines: empty string gives no lines. -/
def pySplitLines (s : List Char) : List (List Char) :=
  if s = [] then [] else pySplitLinesAux [] s

/-- re.split on whitespace runs preceded by a sentence-ending punctuation
mark (the lookbehind split of indictrans2_server.py line 211).  A run of
whitespace whose preceding character is one of . ! ? ends the current
segment; the accumulator holds the current segment reversed, so its head
is the previous character.  The boolean flag records that the scanner is
inside the whitespace run of a match (consuming it one character at a
time keeps the recursion structural); the accumulator is empty whenever
the flag is set. -/
def sentGo : Bool → List Char → List Char → List (List Char)
  | _, acc, [] => [acc.reverse]
  | skipping, acc, c :: rest =>
    if skipping && isWsB c then sentGo true acc rest
    else if isWsB c &&
        (acc.head? == some '.' || acc.head? == some '!' || acc.head? == some '?') then
      acc.reverse :: sentGo true [] rest
    else sentGo false (c :: acc) rest

/-- re.split of the sentence pattern over the whole text. -/
def sentSplit (text : List Char) : List (List Char) :=
  sentGo false [] text

/-- The sentence-based fallback of split_into_units (indictrans2_server.py
lines 210-218): split on sentence boundaries, strip, drop empties, and
fall back to the whole text as a single unit. -/
def sentFallback (text : List Char) : List (List Char) :=
  let cleaned := ((sentSplit text).map pyStrip).filter (fun l => l ≠ [])
  if cleaned ≠ [] then cleaned else [text]

/-- split_into_units (indictrans2_server.py lines 191-218): each non-blank
line is a unit when the text contains a newline; otherwise (or when every
line is blank) the sentence-based fallback applies. -/
def split_into_units (text : List Char) : List (List Char) :=
  if '\n' ∈ text then
    let units := ((pySplitLines text).map pyStrip).filter (fun l => l ≠ [])
    if units ≠ [] then units else sentFallback text
  else sentFallback text

/-- The placeholder-only check of the translation loops
(indictrans2_server.py lines 251 and 367): the stripped sentence starts
with the three characters S C I and splits into exactly one
whitespace-delimited token. -/
def isPhOnly (s : List Char) : Bool :=
  "SCI".data.isPrefixOf s && (pySplitWs s).length == 1

/-- A well-formed placeholder token as the data model defines it
(spec section 3): the prefix S C I followed by a nonempty run of digits. -/
def isPlaceholderToken (s : List Char) : Bool :=
  "SCI".data.isPrefixOf s && !(s.drop 3).isEmpty && (s.drop 3).all Char.isDigit

/-- The per-unit body of translate (indictrans2_server.py lines 246-304).
A blank unit is skipped; a placeholder-only unit is emitted stripped,
bypassing the engine; otherwise the engine oracle is consulted and on
failure (None, covering exception, empty preprocess, failed tokenization,
empty decode and blank postprocess — every such path appends the original
sentence) the unit itself is kept. -/
def processUnit (engine : List Char → Option (List Char))
    (sentence : List Char) : Option (List Char) :=
  if pyStrip sentence = [] then none
  else if isPhOnly (pyStrip sentence) then some (pyStrip sentence)
  else
    match engine sentence with
    | some tr => some tr
    | none => some sentence

/-- The per-unit body of translate_stream (indictrans2_server.py lines
361-536).  The stream variant strips the unit first, restores and
post-processes every emitted chunk (bypass, engine failure and engine
success alike). -/
def processUnitStream (engine : List Char → Option (List Char))
    (tm : List (List Char × List Char)) (pp : List Char → List Char)
    (sentence : List Char) : Option (List Char) :=
  let s := pyStrip sentence
  if s = [] then none
  else if isPhOnly s then some (pp (restore_terms s tm))
  else
    match engine s with
    | some tr => some (pp (restore_terms tr tm))
    | none => some (pp (restore_terms s tm))

/-- The space join of the translated sentences (indictrans2_server.py
line 311). -/
def joinSp (l : List (List Char)) : List Char :=
  joinSeps " ".data l

/-- translate (indictrans2_server.py lines 221-319), with the external
collaborators as parameters: cleaner is strip_markdown (out of scope per
spec section 1), pp is post_process_translation (the external light
cleanup of spec section 2), engine is the model pipeline.  None models
the structured failure result (success False). -/
def translate (cleaner pp : List Char → List Char)
    (engine : List Char → Option (List Char)) (text : List Char) :
    Option (List Char) :=
  let tpm := extract_and_replace_terms (cleaner text)
  let units := split_into_units tpm.1
  if units = [] then none
  else
    let ts := units.filterMap (processUnit engine)
    if ts = [] then none
    else some (pp (restore_terms (joinSp ts) tpm.2))

/-- translate_stream (indictrans2_server.py lines 322-566): the list of
emitted chunk payloads and the final complete payload (None models the
error event). -/
def translate_stream (cleaner pp : List Char → List Char)
    (engine : List Char → Option (List Char)) (text : List Char) :
    List (List Char) × Option (List Char) :=
  let tpm := extract_and_replace_terms (cleaner text)
  let units := split_into_units tpm.1
  if units = [] then ([], none)
  else
    let chunks := units.filterMap (processUnitStream engine tpm.2 pp)
    if chunks = [] then (chunks, none)
    else (chunks, some (joinSp chunks))

/-- Decimal digit list of a natural number, most significant first: proof
infrastructure used to reason about Nat.repr. -/
def reprDigits : Nat → List Char
  | n =>
    if n < 10 then [Nat.digitChar n]
    else reprDigits (n / 10) ++ [Nat.digitChar (n % 10)]
termination_by n => n
decreasing_by
  exact Nat.div_lt_self (by omega) (by omega)

/-! ### Basic lemmas about the Python string primitives -/

theorem isPrefixOf_iff_ex (p : List Char) :
    ∀ s : List Char, p.isPrefixOf s = true ↔ ∃ t, p ++ t = s := by
  induction p with
  | nil => intro s; simp [List.isPrefixOf]
  | cons a as ih =>
    intro s
    cases s with
    | nil => simp [List.isPrefixOf]
    | cons b bs =>
      simp only [List.isPrefixOf, Bool.and_eq_true, beq_iff_eq, ih bs]
      constructor
      · rintro ⟨rfl, t, rfl⟩
        exact ⟨t, rfl⟩
      · rintro ⟨t, h⟩
        rw [List.cons_append] at h
        injection h with h1 h2
        exact ⟨h1, t, h2⟩

theorem isPrefixOf_nil_ne (p : List Char) (hp : p ≠ []) :
    p.isPrefixOf ([] : List Char) = false := by
  cases p with
  | nil => exact absurd rfl hp
  | cons a as => rfl

theorem ne_nil_of_isPrefixOf_false {p : List Char} {s : List Char}
    (h : p.isPrefixOf s = false) : p ≠ [] := by
  intro he
  subst he
  simp at h

theorem isSub_nil (p : List Char) : isSub p [] = p.isPrefixOf [] := rfl

theorem isSub_cons (p : List Char) (c : Char) (s' : List Char) :
    isSub p (c :: s') = (p.isPrefixOf (c :: s') || isSub p s') := rfl

theorem pyReplaceGo_skip (p t : List Char) :
    ∀ (k : Nat) (s : List Char), pyReplaceGo p t s k = pyReplaceGo p t (s.drop k) 0 := by
  intro k
  induction k with
  | zero => intro s; rw [List.drop_zero]
  | succ k ih =>
    intro s
    cases s with
    | nil => rfl
    | cons c s' =>
      show pyReplaceGo p t s' k = _
      rw [ih s', List.drop_succ_cons]

theorem pyReplace_nil (p t : List Char) :
    pyReplace p t [] = if p = [] then t else [] := by
  by_cases hp : p = [] <;> simp [pyReplace, pyReplaceGo, hp]

theorem pyReplace_cons (p t : List Char) (c : Char) (s' : List Char) :
    pyReplace p t (c :: s') =
      if p ≠ [] ∧ p.isPrefixOf (c :: s') then t ++ pyReplace p t ((c :: s').drop p.length)
      else if p = [] then t ++ c :: pyReplace p t s'
      else c :: pyReplace p t s' := by
  by_cases hp : p = []
  · subst hp
    simp [pyReplace]
  · rw [pyReplace, if_neg hp]
    show pyReplaceGo p t (c :: s') 0 = _
    rw [pyReplaceGo]
    have hL : p.length = (p.length - 1) + 1 := by
      have : 0 < p.length := List.length_pos.mpr hp
      omega
    by_cases hpre : p.isPrefixOf (c :: s') = true
    · rw [if_pos hpre, if_pos ⟨hp, hpre⟩, pyReplaceGo_skip p t (p.length - 1) s']
      rw [pyReplace, if_neg hp]
      have hd : (c :: s').drop p.length = s'.drop (p.length - 1) := by
        conv_lhs => rw [hL]
        rw [List.drop_succ_cons]
      rw [hd]
    · rw [if_neg hpre, if_neg (by simp [hpre]), if_neg hp]
      rw [pyReplace, if_neg hp]

theorem pyReplace_of_not_sub (p t : List Char) :
    ∀ s, isSub p s = false → pyReplace p t s = s := by
  intro s
  induction s with
  | nil =>
    intro h
    rw [isSub_nil] at h
    rw [pyReplace_nil, if_neg (ne_nil_of_isPrefixOf_false h)]
  | cons c s' ih =>
    intro h
    rw [isSub_cons, Bool.or_eq_false_iff] at h
    obtain ⟨h1, h2⟩ := h
    rw [pyReplace_cons]
    rw [if_neg (by simp [h1]), if_neg (ne_nil_of_isPrefixOf_false h1), ih h2]

theorem pyReplaceFirst_decomp (p t : List Char) (hp : p ≠ []) :
    ∀ s, isSub p s = true →
      ∃ pre post, s = pre ++ p ++ post ∧ pyReplaceFirst p t s = pre ++ t ++ post := by
  intro s
  induction s with
  | nil =>
    intro h
    rw [isSub_nil] at h
    obtain ⟨u, hu⟩ := (isPrefixOf_iff_ex p []).mp h
    exact absurd (List.append_eq_nil.mp hu).1 hp
  | cons c s' ih =>
    intro h
    cases hpre : p.isPrefixOf (c :: s') with
    | true =>
      obtain ⟨rest, hrest⟩ := (isPrefixOf_iff_ex p (c :: s')).mp hpre
      refine ⟨[], rest, by simp [← hrest], ?_⟩
      have hdrop : (c :: s').drop p.length = rest := by
        rw [← hrest]
        exact List.drop_left p rest
      simp [pyReplaceFirst, hp, hpre, hdrop]
    | false =>
      have h2 : isSub p s' = true := by
        rw [isSub_cons, hpre] at h
        simpa using h
      obtain ⟨pre, post, e1, e2⟩ := ih h2
      refine ⟨c :: pre, post, by simp [e1], ?_⟩
      simp [pyReplaceFirst, hp, hpre, e2]

theorem pyReplace_decomp (p t : List Char) (hp : p ≠ []) (s : List Char) :
    ∃ segs, segs ≠ [] ∧ s = joinSeps p segs ∧ pyReplace p t s = joinSeps t segs := by
  have main : ∀ n (s : List Char), s.length ≤ n →
      ∃ segs, segs ≠ [] ∧ s = joinSeps p segs ∧ pyReplace p t s = joinSeps t segs := by
    intro n
    induction n with
    | zero =>
      intro s hs
      have he : s = [] := List.eq_nil_of_length_eq_zero (by omega)
      subst he
      refine ⟨[[]], by simp, by simp [joinSeps], ?_⟩
      rw [pyReplace_nil, if_neg hp]
      simp [joinSeps]
    | succ n ih =>
      intro s hs
      cases s with
      | nil =>
        refine ⟨[[]], by simp, by simp [joinSeps], ?_⟩
        rw [pyReplace_nil, if_neg hp]
        simp [joinSeps]
      | cons c s' =>
        cases hpre : p.isPrefixOf (c :: s') with
        | true =>
          obtain ⟨rest, hrest⟩ := (isPrefixOf_iff_ex p (c :: s')).mp hpre
          have hdrop : (c :: s').drop p.length = rest := by
            rw [← hrest]
            exact List.drop_left p rest
          have hplen : 0 < p.length := List.length_pos.mpr hp
          have hlen : rest.length ≤ n := by
            have := congrArg List.length hrest
            simp at this
            simp at hs
            omega
          obtain ⟨segs, hne, hseg1, hseg2⟩ := ih rest hlen
          cases segs with
          | nil => exact absurd rfl hne
          | cons g gs =>
            refine ⟨[] :: g :: gs, by simp, ?_, ?_⟩
            · show c :: s' = joinSeps p ([] :: g :: gs)
              have : joinSeps p ([] :: g :: gs) = p ++ joinSeps p (g :: gs) := by
                simp [joinSeps]
              rw [this, ← hseg1, hrest]
            · rw [pyReplace_cons, if_pos ⟨hp, hpre⟩, hdrop, hseg2]
              simp [joinSeps]
        | false =>
          obtain ⟨segs, hne, hseg1, hseg2⟩ := ih s' (by simp at hs; omega)
          cases segs with
          | nil => exact absurd rfl hne
          | cons g gs =>
            refine ⟨(c :: g) :: gs, by simp, ?_, ?_⟩
            · cases gs with
              | nil =>
                simp [joinSeps] at hseg1 ⊢
                exact hseg1
              | cons g2 gs2 =>
                simp [joinSeps] at hseg1 ⊢
                exact hseg1
            · rw [pyReplace_cons, if_neg (by simp [hpre]),
                if_neg (ne_nil_of_isPrefixOf_false hpre), hseg2]
              cases gs with
              | nil => simp [joinSeps]
              | cons g2 gs2 => simp [joinSeps]
  exact main s.length s le_rfl

/-! ### Lemmas about the restoration passes -/

theorem exactPass_of_not_sub :
    ∀ (m : List (List Char × List Char)) (t : List Char),
      (∀ kv ∈ m, isSub kv.1 t = false) → exactPass t m = t := by
  intro m
  induction m with
  | nil => intro t _; rfl
  | cons kv m' ih =>
    intro t h
    have h1 : pyReplace kv.1 kv.2 t = t :=
      pyReplace_of_not_sub _ _ _ (h kv (by simp))
    have h2 : exactPass t m' = t := ih t (fun kv' hkv' => h kv' (by simp [hkv']))
    simp only [exactPass, List.foldl_cons] at h2 ⊢
    rw [h1, h2]

theorem matchSegs_cons_none {seg : List Char} {s : List Char}
    (segs : List (List Char)) (h : seg.isPrefixOf s = false) :
    matchSegs (seg :: segs) s = none := by
  cases segs with
  | nil => simp [matchSegs, h]
  | cons seg2 rest => simp [matchSegs, h]

theorem searchSegs_head_sub (seg : List Char) (segs : List (List Char)) :
    ∀ s, searchSegs (seg :: segs) s = true → isSub seg s = true := by
  intro s
  induction s with
  | nil =>
    intro h
    cases hpre : seg.isPrefixOf ([] : List Char) with
    | true => rw [isSub_nil]; exact hpre
    | false =>
      rw [searchSegs, matchSegs_cons_none segs hpre] at h
      simp at h
  | cons c s' ih =>
    intro h
    rw [isSub_cons]
    cases hpre : seg.isPrefixOf (c :: s') with
    | true => simp
    | false =>
      rw [searchSegs, matchSegs_cons_none segs hpre] at h
      simp at h
      simp [ih h]

theorem restoreEntry_clean {r p tgt : List Char}
    (h1 : isSub p r = false) (h2 : isSub transSCI r = false)
    (h3 : searchSegs (segsP2 (numStrOf p)) r = false) :
    restoreEntry r p tgt = r := by
  have h4 : searchSegs (segsP1 (numStrOf p)) r = false := by
    cases hs : searchSegs (segsP1 (numStrOf p)) r with
    | false => rfl
    | true =>
      have := searchSegs_head_sub transSCI [numStrOf p] r hs
      rw [this] at h2
      cases h2
  simp [restoreEntry, h1, h2, h3, h4]

theorem mem_insertAsc (x : List Char × List Char) :
    ∀ l y, y ∈ insertAsc x l ↔ y = x ∨ y ∈ l := by
  intro l
  induction l with
  | nil => intro y; simp [insertAsc]
  | cons z zs ih =>
    intro y
    rw [insertAsc]
    split
    · simp
    · simp [ih y]
      tauto

theorem mem_sortedItems (m : List (List Char × List Char)) :
    ∀ y, y ∈ sortedItems m ↔ y ∈ m := by
  have : ∀ (l : List (List Char × List Char)) y,
      y ∈ l.foldr insertAsc [] ↔ y ∈ l := by
    intro l
    induction l with
    | nil => intro y; simp
    | cons z zs ih =>
      intro y
      simp only [List.foldr_cons, mem_insertAsc, ih y, List.mem_cons]
  exact this m

theorem sortedItems_sorted (m : List (List Char × List Char)) :
    List.Pairwise (fun a b => sortKey a.1 ≤ sortKey b.1) (sortedItems m) := by
  have step : ∀ (x : List Char × List Char) l,
      List.Pairwise (fun a b => sortKey a.1 ≤ sortKey b.1) l →
      List.Pairwise (fun a b => sortKey a.1 ≤ sortKey b.1) (insertAsc x l) := by
    intro x l
    induction l with
    | nil => intro _; simp [insertAsc]
    | cons z zs ih =>
      intro hp
      rw [insertAsc]
      rcases List.pairwise_cons.mp hp with ⟨hz, hzs⟩
      split
      · rename_i hle
        refine List.pairwise_cons.mpr ⟨?_, hp⟩
        intro y hy
        rcases List.mem_cons.mp hy with rfl | hy'
        · exact hle
        · exact le_trans hle (hz y hy')
      · rename_i hgt
        refine List.pairwise_cons.mpr ⟨?_, ih hzs⟩
        intro y hy
        rcases (mem_insertAsc x zs y).mp hy with rfl | hy'
        · omega
        · exact hz y hy'
  have : ∀ (l : List (List Char × List Char)),
      List.Pairwise (fun a b => sortKey a.1 ≤ sortKey b.1) (l.foldr insertAsc []) := by
    intro l
    induction l with
    | nil => simp
    | cons z zs ih => exact step z (zs.foldr insertAsc []) ih
  exact this m

theorem restore_noop (m : List (List Char × List Char)) (t : List Char)
    (hsub : ∀ kv ∈ m, isSub kv.1 t = false)
    (htr : isSub transSCI t = false)
    (hp2 : ∀ kv ∈ m, searchSegs (segsP2 (numStrOf kv.1)) t = false) :
    restore_terms t m = t := by
  have hfold : ∀ (l : List (List Char × List Char)),
      (∀ kv ∈ l, kv ∈ m) →
      l.foldl (fun r kv => restoreEntry r kv.1 kv.2) t = t := by
    intro l
    induction l with
    | nil => intro _; rfl
    | cons kv l' ih =>
      intro hmem
      have hm := hmem kv (by simp)
      have he : restoreEntry t kv.1 kv.2 = t :=
        restoreEntry_clean (hsub kv hm) htr (hp2 kv hm)
      simp only [List.foldl_cons, he]
      exact ih (fun kv' h' => hmem kv' (by simp [h']))
  unfold restore_terms
  rw [exactPass_of_not_sub m t hsub]
  exact hfold (sortedItems m) (fun kv h => (mem_sortedItems m kv).mp h)

/-! ### Injectivity of the decimal rendering of Nat, hence of placeholders -/

theorem reprDigits_lt_eq {n : Nat} (h : n < 10) :
    reprDigits n = [Nat.digitChar n] := by
  rw [reprDigits]
  rw [if_pos h]

theorem reprDigits_ge_eq {n : Nat} (h : ¬n < 10) :
    reprDigits n = reprDigits (n / 10) ++ [Nat.digitChar (n % 10)] := by
  rw [reprDigits]
  rw [if_neg h]

theorem toDigitsCore_eq :
    ∀ n : Nat, ∀ fuel ds, n < fuel →
      Nat.toDigitsCore 10 fuel n ds = reprDigits n ++ ds := by
  intro n
  induction n using Nat.strong_induction_on with
  | _ n ih =>
    intro fuel ds hf
    cases fuel with
    | zero => omega
    | succ f =>
      show (if n / 10 = 0 then Nat.digitChar (n % 10) :: ds
        else Nat.toDigitsCore 10 f (n / 10) (Nat.digitChar (n % 10) :: ds)) =
        reprDigits n ++ ds
      by_cases h10 : n / 10 = 0
      · have hlt : n < 10 := by omega
        rw [if_pos h10, reprDigits_lt_eq hlt, Nat.mod_eq_of_lt hlt]
        simp
      · rw [if_neg h10]
        have hlt : n / 10 < n := Nat.div_lt_self (by omega) (by omega)
        have hfuel : n / 10 < f := by omega
        rw [ih (n / 10) hlt f (Nat.digitChar (n % 10) :: ds) hfuel,
          reprDigits_ge_eq (show ¬n < 10 by omega)]
        simp

theorem repr_data_eq (n : Nat) : (Nat.repr n).data = reprDigits n := by
  show (Nat.toDigits 10 n).asString.data = reprDigits n
  rw [Nat.toDigits, toDigitsCore_eq n (n + 1) [] (by omega)]
  simp [List.asString]

theorem digitChar_inj_lt {a b : Nat} (ha : a < 10) (hb : b < 10)
    (h : Nat.digitChar a = Nat.digitChar b) : a = b := by
  interval_cases a <;> interval_cases b <;> first | rfl | (exfalso; revert h; decide)

theorem reprDigits_ne_nil (n : Nat) : reprDigits n ≠ [] := by
  rw [reprDigits]
  split <;> simp

theorem reprDigits_inj : ∀ a b : Nat, reprDigits a = reprDigits b → a = b := by
  intro a
  induction a using Nat.strong_induction_on with
  | _ a ih =>
    intro b h
    by_cases ha : a < 10 <;> by_cases hb : b < 10
    · rw [reprDigits_lt_eq ha, reprDigits_lt_eq hb] at h
      injection h with h1 _
      exact digitChar_inj_lt ha hb h1
    · rw [reprDigits_lt_eq ha, reprDigits_ge_eq hb] at h
      have hl := congrArg List.length h
      have hne : 0 < (reprDigits (b / 10)).length :=
        List.length_pos.mpr (reprDigits_ne_nil (b / 10))
      simp only [List.length_cons, List.length_nil, List.length_append] at hl
      omega
    · rw [reprDigits_ge_eq ha, reprDigits_lt_eq hb] at h
      have hl := congrArg List.length h
      have hne : 0 < (reprDigits (a / 10)).length :=
        List.length_pos.mpr (reprDigits_ne_nil (a / 10))
      simp only [List.length_cons, List.length_nil, List.length_append] at hl
      omega
    · rw [reprDigits_ge_eq ha, reprDigits_ge_eq hb] at h
      have hlast := congrArg List.getLast? h
      rw [List.getLast?_concat, List.getLast?_concat] at hlast
      have hmod : a % 10 = b % 10 := by
        refine digitChar_inj_lt (Nat.mod_lt _ (by omega)) (Nat.mod_lt _ (by omega)) ?_
        injection hlast
      have hdrop := congrArg List.dropLast h
      rw [List.dropLast_concat, List.dropLast_concat] at hdrop
      have hdiv : a / 10 = b / 10 :=
        ih (a / 10) (Nat.div_lt_self (by omega) (by omega)) _ hdrop
      omega

theorem repr_data_inj {i j : Nat} (h : (Nat.repr i).data = (Nat.repr j).data) :
    i = j := by
  rw [repr_data_eq, repr_data_eq] at h
  exact reprDigits_inj i j h

theorem placeholder_name_inj {i j : Nat}
    (h : "SCI".data ++ (Nat.repr i).data = "SCI".data ++ (Nat.repr j).data) :
    i = j :=
  repr_data_inj (List.append_cancel_left h)

/-! ### The ordinal invariant of the extraction loop -/

theorem foldl_inv {σ α : Type} (f : σ → α → σ) (P : σ → Prop)
    (hf : ∀ s a, P s → P (f s a)) :
    ∀ (l : List α) (s : σ), P s → P (l.foldl f s) := by
  intro l
  induction l with
  | nil => intro s hs; exact hs
  | cons a l' ih => intro s hs; exact ih (f s a) (hf s a hs)

theorem stepMatch_inv (eng hin : List Char) (st : ExtrState) (span : Nat × Nat)
    (h : st.termMap.map Prod.fst =
        (List.range st.index).map (fun i => "SCI".data ++ (Nat.repr i).data) ∧
      st.termMap.length = st.index) :
    (stepMatch eng hin st span).termMap.map Prod.fst =
        (List.range (stepMatch eng hin st span).index).map
          (fun i => "SCI".data ++ (Nat.repr i).data) ∧
      (stepMatch eng hin st span).termMap.length = (stepMatch eng hin st span).index := by
  obtain ⟨h1, h2⟩ := h
  unfold stepMatch
  split
  · exact ⟨h1, h2⟩
  · have hfresh' : ∀ kv ∈ st.termMap, kv.1 ≠ create_placeholder eng st.index := by
      intro kv hkv he
      have hmem : kv.1 ∈ st.termMap.map Prod.fst := List.mem_map_of_mem _ hkv
      rw [h1] at hmem
      obtain ⟨j, hj, hje⟩ := List.mem_map.mp hmem
      have hj' : j = st.index := placeholder_name_inj (by rw [hje, he]; rfl)
      rw [List.mem_range] at hj
      omega
    have hfresh :
        (st.termMap.any (fun kv => kv.1 == create_placeholder eng st.index)) = false := by
      cases hany : st.termMap.any (fun kv => kv.1 == create_placeholder eng st.index) with
      | false => rfl
      | true =>
        exfalso
        obtain ⟨kv, hkv, hbe⟩ := List.any_eq_true.mp hany
        exact hfresh' kv hkv (eq_of_beq hbe)
    show (dictInsert st.termMap (create_placeholder eng st.index) hin).map Prod.fst =
        (List.range (st.index + 1)).map (fun i => "SCI".data ++ (Nat.repr i).data) ∧
      (dictInsert st.termMap (create_placeholder eng st.index) hin).length = st.index + 1
    rw [dictInsert, if_neg (by rw [hfresh]; simp)]
    constructor
    · rw [List.map_append, h1, List.range_succ, List.map_append]
      rfl
    · rw [List.length_append, h2]
      rfl

theorem extract_termMap_ordinals (text : List Char) :
    (extract_and_replace_terms text).2.map Prod.fst =
      (List.range (extract_and_replace_terms text).2.length).map
        (fun i => "SCI".data ++ (Nat.repr i).data) := by
  have houter :
      (fun (st : ExtrState) =>
        st.termMap.map Prod.fst =
          (List.range st.index).map (fun i => "SCI".data ++ (Nat.repr i).data) ∧
        st.termMap.length = st.index)
      (sortedTerms.foldl
        (fun st term =>
          (findMatchesAux (pyLower term.1.data) st.textLower 0).foldl
            (stepMatch term.1.data term.2.data) st)
        { textLower := pyLower text, termMap := [], modified := text, index := 0 }) := by
    refine foldl_inv _
      (fun (st : ExtrState) =>
        st.termMap.map Prod.fst =
          (List.range st.index).map (fun i => "SCI".data ++ (Nat.repr i).data) ∧
        st.termMap.length = st.index) ?_ _ _ ⟨by simp, rfl⟩
    intro s term hs
    exact foldl_inv _ _ (fun s' a hs' => stepMatch_inv term.1.data term.2.data s' a hs')
      _ s hs
  obtain ⟨h1, h2⟩ := houter
  show (extract_and_replace_terms text).2.map Prod.fst = _
  unfold extract_and_replace_terms
  simp only
  rw [h1, h2]

/-! ### Lemmas about stripping and the per-unit translation loops -/

theorem dropWhile_head_false {p : Char → Bool} :
    ∀ {l : List Char} {c : Char} {t : List Char},
      List.dropWhile p l = c :: t → p c = false := by
  intro l
  induction l with
  | nil => intro c t h; cases h
  | cons a l' ih =>
    intro c t h
    rw [List.dropWhile_cons] at h
    by_cases hp : p a = true
    · rw [if_pos hp] at h
      exact ih h
    · rw [if_neg hp] at h
      injection h with h1 _
      subst h1
      exact Bool.eq_false_iff.mpr hp

theorem dropWhile_idem (p : Char → Bool) :
    ∀ l : List Char, List.dropWhile p (List.dropWhile p l) = List.dropWhile p l := by
  intro l
  cases hd : List.dropWhile p l with
  | nil => rfl
  | cons c t =>
    rw [List.dropWhile_cons, dropWhile_head_false hd]
    simp

theorem getLast?_dropWhile (p : Char → Bool) :
    ∀ l : List Char, List.dropWhile p l ≠ [] →
      (List.dropWhile p l).getLast? = l.getLast? := by
  intro l
  induction l with
  | nil => intro h; exact absurd rfl h
  | cons a l' ih =>
    intro h
    rw [List.dropWhile_cons] at h ⊢
    by_cases hp : p a = true
    · rw [if_pos hp] at h ⊢
      rw [ih h]
      have hl' : l' ≠ [] := by
        intro he
        subst he
        exact h rfl
      cases l' with
      | nil => exact absurd rfl hl'
      | cons b t => rw [List.getLast?_cons_cons]
    · rw [if_neg hp]

theorem pyStrip_idem (s : List Char) : pyStrip (pyStrip s) = pyStrip s := by
  unfold pyStrip
  set u := s.dropWhile isWsB with hu
  set v := u.reverse.dropWhile isWsB with hv
  have stepA : v.reverse.dropWhile isWsB = v.reverse := by
    cases hvr : v.reverse with
    | nil => rfl
    | cons c t =>
      have hvne : v ≠ [] := by
        intro he
        rw [he] at hvr
        cases hvr
      have hurne : u.reverse ≠ [] := by
        intro he
        rw [hv, he] at hvne
        exact hvne rfl
      have hune : u ≠ [] := by
        intro he
        rw [he] at hurne
        exact hurne rfl
      have hlast : v.getLast? = u.reverse.getLast? := getLast?_dropWhile isWsB u.reverse hvne
      have hlast2 : u.reverse.getLast? = u.head? := List.getLast?_reverse u
      have hhead : v.reverse.head? = v.getLast? := List.head?_reverse v
      obtain ⟨c', t', hct⟩ := List.exists_cons_of_ne_nil hune
      have hc' : isWsB c' = false := dropWhile_head_false (hu ▸ hct)
      have : v.reverse.head? = some c' := by
        rw [hhead, hlast, hlast2, hct]
        rfl
      rw [hvr] at this
      injection this with hce
      rw [List.dropWhile_cons]
      rw [hce, hc']
      simp
  rw [stepA, List.reverse_reverse]
  have stepB : v.dropWhile isWsB = v := by
    rw [hv]
    exact dropWhile_idem isWsB u.reverse
  rw [stepB]

theorem isDigit_not_ws {c : Char} (h : c.isDigit = true) : isWsB c = false := by
  have hne : ∀ x : Char, x.isDigit = false → (c == x) = false := by
    intro x hx
    cases hb : c == x with
    | false => rfl
    | true =>
      exfalso
      have he := eq_of_beq hb
      subst he
      rw [h] at hx
      cases hx
  rw [isWsB, hne ' ' (by decide), hne '\t' (by decide), hne '\n' (by decide),
    hne '\r' (by decide), hne '\x0b' (by decide), hne '\x0c' (by decide)]
  rfl

theorem splitWsGo_all_nonws :
    ∀ (u acc : List Char), (∀ c ∈ u, isWsB c = false) → (acc ≠ [] ∨ u ≠ []) →
      splitWsGo u acc = [acc.reverse ++ u] := by
  intro u
  induction u with
  | nil =>
    intro acc _ hd
    rcases hd with h | h
    · rw [splitWsGo, if_neg h]
      simp
    · exact absurd rfl h
  | cons c u' ih =>
    intro acc hws2 _
    rw [splitWsGo]
    rw [if_neg (by simp [hws2 c (by simp)])]
    rw [ih (c :: acc) (fun d hd => hws2 d (by simp [hd])) (Or.inl (by simp))]
    simp

theorem pySplitWs_single (s : List Char) (hne : s ≠ [])
    (hws : ∀ c ∈ s, isWsB c = false) : pySplitWs s = [s] := by
  have h := splitWsGo_all_nonws s [] hws (Or.inr hne)
  simpa [pySplitWs] using h

theorem placeholderToken_isPhOnly {s : List Char}
    (h : isPlaceholderToken s = true) : isPhOnly s = true := by
  rw [isPlaceholderToken] at h
  simp only [Bool.and_eq_true] at h
  obtain ⟨⟨hpre, hdne⟩, hdig⟩ := h
  obtain ⟨rest, hrest⟩ := (isPrefixOf_iff_ex _ s).mp hpre
  have hdrop : s.drop 3 = rest := by
    rw [← hrest]
    exact List.drop_left "SCI".data rest
  have hsne : s ≠ [] := by
    rw [← hrest]
    simp
  have hws : ∀ c ∈ s, isWsB c = false := by
    intro c hc
    rw [← hrest] at hc
    rcases List.mem_append.mp hc with hc1 | hc2
    · simp at hc1
      rcases hc1 with rfl | rfl | rfl <;> decide
    · refine isDigit_not_ws ?_
      rw [List.all_eq_true] at hdig
      exact hdig c (by rw [hdrop]; exact hc2)
  rw [isPhOnly]
  rw [hpre, pySplitWs_single s hsne hws]
  rfl

theorem processUnit_none_iff (e : List Char → Option (List Char)) (u : List Char) :
    processUnit e u = none ↔ pyStrip u = [] := by
  constructor
  · intro hn
    by_contra h
    rw [processUnit, if_neg h] at hn
    split at hn
    · cases hn
    · split at hn <;> cases hn
  · intro h
    simp [processUnit, h]

theorem processUnitStream_none_iff (e : List Char → Option (List Char))
    (tm : List (List Char × List Char)) (pp : List Char → List Char) (u : List Char) :
    processUnitStream e tm pp u = none ↔ pyStrip u = [] := by
  constructor
  · intro hn
    by_contra h
    rw [processUnitStream] at hn
    rw [if_neg h] at hn
    split at hn
    · cases hn
    · split at hn <;> cases hn
  · intro h
    simp [processUnitStream, h]

theorem processUnit_congr {e₁ e₂ : List Char → Option (List Char)}
    (h : ∀ s, isPhOnly (pyStrip s) = false → e₁ s = e₂ s) (u : List Char) :
    processUnit e₁ u = processUnit e₂ u := by
  unfold processUnit
  by_cases hb : pyStrip u = []
  · rw [if_pos hb, if_pos hb]
  · rw [if_neg hb, if_neg hb]
    by_cases hph : isPhOnly (pyStrip u) = true
    · rw [if_pos hph, if_pos hph]
    · rw [if_neg hph, if_neg hph, h u (Bool.eq_false_iff.mpr hph)]

theorem processUnitStream_congr {e₁ e₂ : List Char → Option (List Char)}
    (tm : List (List Char × List Char)) (pp : List Char → List Char)
    (h : ∀ s, isPhOnly (pyStrip s) = false → e₁ s = e₂ s) (u : List Char) :
    processUnitStream e₁ tm pp u = processUnitStream e₂ tm pp u := by
  unfold processUnitStream
  by_cases hb : pyStrip u = []
  · rw [if_pos hb, if_pos hb]
  · rw [if_neg hb, if_neg hb]
    by_cases hph : isPhOnly (pyStrip u) = true
    · rw [if_pos hph, if_pos hph]
    · rw [if_neg hph, if_neg hph]
      have he : e₁ (pyStrip u) = e₂ (pyStrip u) := by
        refine h (pyStrip u) ?_
        rw [pyStrip_idem]
        exact Bool.eq_false_iff.mpr hph
      rw [he]

theorem processUnit_totalize (e : List Char → Option (List Char)) (u : List Char) :
    processUnit e u = processUnit (fun s => some ((e s).getD s)) u := by
  unfold processUnit
  by_cases hb : pyStrip u = []
  · rw [if_pos hb, if_pos hb]
  · rw [if_neg hb, if_neg hb]
    by_cases hph : isPhOnly (pyStrip u) = true
    · rw [if_pos hph, if_pos hph]
    · rw [if_neg hph, if_neg hph]
      cases he : e u <;> simp [he]

theorem processUnit_bypass (e : List Char → Option (List Char)) (u : List Char)
    (h : isPhOnly (pyStrip u) = true) : processUnit e u = some (pyStrip u) := by
  have hne : pyStrip u ≠ [] := by
    intro he
    rw [he] at h
    exact absurd h (by decide)
  rw [processUnit, if_neg hne, if_pos h]

theorem processUnitStream_bypass (e : List Char → Option (List Char))
    (tm : List (List Char × List Char)) (pp : List Char → List Char) (u : List Char)
    (h : isPhOnly (pyStrip u) = true) :
    processUnitStream e tm pp u = some (pp (restore_terms (pyStrip u) tm)) := by
  have hne : pyStrip u ≠ [] := by
    intro he
    rw [he] at h
    exact absurd h (by decide)
  rw [processUnitStream]
  rw [if_neg hne, if_pos h]

theorem translate_eq (cleaner pp : List Char → List Char)
    (e : List Char → Option (List Char)) (text : List Char) :
    translate cleaner pp e text =
      if split_into_units (extract_and_replace_terms (cleaner text)).1 = [] then none
      else if (split_into_units (extract_and_replace_terms (cleaner text)).1).filterMap
          (processUnit e) = [] then none
      else some (pp (restore_terms
        (joinSp ((split_into_units (extract_and_replace_terms (cleaner text)).1).filterMap
          (processUnit e)))
        (extract_and_replace_terms (cleaner text)).2)) := rfl

theorem translate_stream_eq (cleaner pp : List Char → List Char)
    (e : List Char → Option (List Char)) (text : List Char) :
    translate_stream cleaner pp e text =
      if split_into_units (extract_and_replace_terms (cleaner text)).1 = [] then ([], none)
      else if (split_into_units (extract_and_replace_terms (cleaner text)).1).filterMap
          (processUnitStream e (extract_and_replace_terms (cleaner text)).2 pp) = [] then
        ((split_into_units (extract_and_replace_terms (cleaner text)).1).filterMap
          (processUnitStream e (extract_and_replace_terms (cleaner text)).2 pp), none)
      else ((split_into_units (extract_and_replace_terms (cleaner text)).1).filterMap
          (processUnitStream e (extract_and_replace_terms (cleaner text)).2 pp),
        some (joinSp ((split_into_units (extract_and_replace_terms (cleaner text)).1).filterMap
          (processUnitStream e (extract_and_replace_terms (cleaner text)).2 pp)))) := rfl

theorem translate_none_iff (cleaner pp : List Char → List Char)
    (e : List Char → Option (List Char)) (text : List Char) :
    translate cleaner pp e text = none ↔
      ∀ u ∈ split_into_units (extract_and_replace_terms (cleaner text)).1,
        pyStrip u = [] := by
  rw [translate_eq]
  by_cases hU : split_into_units (extract_and_replace_terms (cleaner text)).1 = []
  · rw [if_pos hU]
    simp [hU]
  · rw [if_neg hU]
    by_cases hT : (split_into_units (extract_and_replace_terms (cleaner text)).1).filterMap
        (processUnit e) = []
    · rw [if_pos hT]
      have hall := List.filterMap_eq_nil_iff.mp hT
      exact iff_of_true rfl (fun u hu => (processUnit_none_iff e u).mp (hall u hu))
    · rw [if_neg hT]
      refine iff_of_false (by simp) ?_
      intro hall
      exact hT (List.filterMap_eq_nil_iff.mpr
        (fun u hu => (processUnit_none_iff e u).mpr (hall u hu)))

theorem translate_congr (cleaner pp : List Char → List Char)
    {e₁ e₂ : List Char → Option (List Char)} (text : List Char)
    (h : ∀ s, isPhOnly (pyStrip s) = false → e₁ s = e₂ s) :
    translate cleaner pp e₁ text = translate cleaner pp e₂ text := by
  rw [translate_eq, translate_eq,
    List.filterMap_congr (fun u _ => processUnit_congr h u)]

theorem translate_stream_congr (cleaner pp : List Char → List Char)
    {e₁ e₂ : List Char → Option (List Char)} (text : List Char)
    (h : ∀ s, isPhOnly (pyStrip s) = false → e₁ s = e₂ s) :
    translate_stream cleaner pp e₁ text = translate_stream cleaner pp e₂ text := by
  rw [translate_stream_eq, translate_stream_eq,
    List.filterMap_congr
      (fun u _ => processUnitStream_congr (extract_and_replace_terms (cleaner text)).2 pp h u)]

theorem translate_totalize (cleaner pp : List Char → List Char)
    (e : List Char → Option (List Char)) (text : List Char) :
    translate cleaner pp e text =
      translate cleaner pp (fun s => some ((e s).getD s)) text := by
  rw [translate_eq, translate_eq,
    List.filterMap_congr (fun u _ => processUnit_totalize e u)]

/-! ### The claims -/

set_option maxRecDepth 10000

/-- Claim C1, code-bug evaluation.  The claim states that protect followed
immediately by restore yields the input with every matched glossary
occurrence replaced by its target rendering and all other text
byte-identical.  On the input with the term oxygen twice, the inner match
loop applies spans computed against the pre-replacement text to the
already-mutated text, so the second placeholder is spliced at a stale
offset: the round trip returns the corrupted text with a stray residue ox
from inside the second matched span, instead of the text with both
occurrences replaced. -/
theorem C1_roundtrip_bug_eval :
    restore_terms (extract_and_replace_terms "oxygen oxygen".data).1
        (extract_and_replace_terms "oxygen oxygen".data).2 =
      "ऑक्सीजन oxऑक्सीजन".data ∧
    "ऑक्सीजन oxऑक्सीजन".data ≠ "ऑक्सीजन ऑक्सीजन".data :=
  ⟨by decide, by decide⟩

/-- Claim C2, code-bug evaluation.  The claim states that every placeholder
is spliced exactly in place of its matched span, preserving all other
characters, including when a term occurs more than once.  On the input with
the term energy twice, both matches are processed and recorded in the term
map, but the second splice lands at a stale offset, leaving the residue en
from inside the second matched span; the claim requires the protected text
with both spans replaced cleanly. -/
theorem C2_protect_splice_bug_eval :
    (extract_and_replace_terms "energy energy".data).1 = "SCI0 enSCI1".data ∧
    (extract_and_replace_terms "energy energy".data).2 =
      [("SCI0".data, "ऊर्जा".data), ("SCI1".data, "ऊर्जा".data)] ∧
    "SCI0 enSCI1".data ≠ "SCI0 SCI1".data :=
  ⟨by decide, by decide, by decide⟩

/-- Claim C3, confirmed.  The exact-match restoration pass replaces only
occurrences of the exact placeholder tokens of the term map and alters
nothing else: first, a text containing no exact occurrence of any mapped
placeholder (it may well contain prefix-like substrings such as SCIENCE or
the bare transliteration) passes through the exact pass unchanged; second,
each single replacement step decomposes the text into segments separated by
exact occurrences of the token and rewrites exactly those separators to the
target rendering, leaving the segments verbatim. -/
theorem C3_conservative_exact_pass :
    (∀ (t : List Char) (m : List (List Char × List Char)),
      (∀ kv ∈ m, isSub kv.1 t = false) → exactPass t m = t) ∧
    (∀ (p tgt s : List Char), p ≠ [] →
      ∃ segs, segs ≠ [] ∧ s = joinSeps p segs ∧ pyReplace p tgt s = joinSeps tgt segs) :=
  ⟨fun t m h => exactPass_of_not_sub m t h,
   fun p tgt s hp => pyReplace_decomp p tgt hp s⟩

/-- Witness for C3 at a concrete text that resembles placeholders without
containing one: the exact pass leaves it untouched. -/
theorem C3_witness :
    exactPass "SCIENCE एससीआई5x".data [("SCI0".data, "ऑक्सीजन".data)] =
      "SCIENCE एससीआई5x".data :=
  C3_conservative_exact_pass.1 "SCIENCE एससीआई5x".data
    [("SCI0".data, "ऑक्सीजन".data)] (by decide)

/-- Claim C4, confirmed.  For every input, the placeholders recorded by one
protect call are the tokens SCI0 .. SCI(k-1) in order of first replacement,
with exactly one term-map entry per replacement, and they are pairwise
distinct. -/
theorem C4_placeholder_uniqueness (text : List Char) :
    (extract_and_replace_terms text).2.map Prod.fst =
      (List.range (extract_and_replace_terms text).2.length).map
        (fun i => "SCI".data ++ (Nat.repr i).data) ∧
    ((extract_and_replace_terms text).2.map Prod.fst).Nodup := by
  refine ⟨extract_termMap_ordinals text, ?_⟩
  rw [extract_termMap_ordinals text]
  exact (List.nodup_range _).map (fun i j hij => placeholder_name_inj hij)

/-- Counterexample to claim C5 as stated.  Restoration is not idempotent
for every text and term map: on a translated text holding two bare
transliterated prefixes and the single-entry map produced for one oxygen
occurrence, the first restore call consumes only the first transliterated
occurrence (the generic fallback replaces at most one occurrence per
entry), and a second restore call consumes the second, so running restore
twice differs from running it once. -/
theorem C5_restore_not_idempotent :
    restore_terms (restore_terms "एससीआई एससीआई".data [("SCI0".data, "ऑक्सीजन".data)])
        [("SCI0".data, "ऑक्सीजन".data)] ≠
      restore_terms "एससीआई एससीआई".data [("SCI0".data, "ऑक्सीजन".data)] := by
  decide

/-- Claim C5, amended.  Re-running restore is a no-op on text in which no
placeholder of the map survives and no transliteration artifact remains:
if the text contains no exact placeholder of the map, no occurrence of the
transliterated prefix, and no match of the spaced transliterated pattern of
any entry, then restore leaves it unchanged (and is therefore idempotent
from that point on). -/
theorem C5_restore_noop_amended (m : List (List Char × List Char)) (t : List Char)
    (hsub : ∀ kv ∈ m, isSub kv.1 t = false)
    (htr : isSub transSCI t = false)
    (hp2 : ∀ kv ∈ m, searchSegs (segsP2 (numStrOf kv.1)) t = false) :
    restore_terms t m = t :=
  restore_noop m t hsub htr hp2

/-- Witness for the amended C5 at a concrete clean text and map. -/
theorem C5_witness :
    restore_terms "नमस्ते दुनिया".data [("SCI0".data, "ऑक्सीजन".data)] =
      "नमस्ते दुनिया".data :=
  C5_restore_noop_amended [("SCI0".data, "ऑक्सीजन".data)] "नमस्ते दुनिया".data
    (by decide) (by decide) (by decide)

/-- Counterexample to claim C6 as stated.  Across one whole restore call
the code can replace more script-transliterated occurrences than there are
outstanding entries: the input text consists of two transliterated
digit-bearing occurrences, the map has exactly one entry, and the numbered
transliterated pattern replaces all matches, so both occurrences are
rewritten by the single entry. -/
theorem C6_over_replacement :
    restore_terms "एससीआई0 एससीआई0".data [("SCI0".data, "X".data)] = "X X".data ∧
    "एससीआई0 एससीआई0".data = transSCI ++ ("0 ".data ++ (transSCI ++ "0".data)) ∧
    isSub transSCI "X X".data = false ∧
    ([("SCI0".data, "X".data)] : List (List Char × List Char)).length = 1 :=
  ⟨by decide, by decide, by decide, rfl⟩

/-- Claim C6, amended.  Heuristic restoration processes the term-map
entries in ascending numeral order (numeral parsed from the placeholder,
999 when absent), and the generic transliterated-prefix fallback replaces
at most one transliterated-prefix occurrence per entry, and only when no
contiguous digit-suffixed transliterated occurrence with a different
single-digit numeral is present: for an entry whose exact and numbered
patterns all fail, the step either leaves the text unchanged, or the
fallback guard held and the result replaces exactly one occurrence of the
transliterated prefix, splicing the target into the text and leaving
everything else verbatim.  The numbered patterns themselves may replace
several occurrences, which is what refutes the unamended claim. -/
theorem C6_heuristic_amended :
    (∀ m : List (List Char × List Char),
      List.Pairwise (fun a b => sortKey a.1 ≤ sortKey b.1) (sortedItems m)) ∧
    (∀ r p tgt : List Char,
      isSub p r = false →
      searchSegs (segsP1 (numStrOf p)) r = false →
      searchSegs (segsP2 (numStrOf p)) r = false →
      restoreEntry r p tgt = r ∨
        ((isSub transSCI r && fallbackGuard p r) = true ∧
          ∃ pre post, r = pre ++ transSCI ++ post ∧
            restoreEntry r p tgt = pre ++ tgt ++ post)) := by
  constructor
  · exact sortedItems_sorted
  · intro r p tgt h1 hP1 hP2
    unfold restoreEntry
    rw [if_neg (by simp [h1]), if_neg (by simp [hP1]), if_neg (by simp [hP2])]
    by_cases hfb : (isSub transSCI r && fallbackGuard p r) = true
    · right
      have htr : isSub transSCI r = true := by
        have h := hfb
        rw [Bool.and_eq_true] at h
        exact h.1
      obtain ⟨pre, post, e1, e2⟩ :=
        pyReplaceFirst_decomp transSCI tgt (by decide) r htr
      rw [if_pos hfb]
      exact ⟨hfb, pre, post, e1, e2⟩
    · left
      rw [if_neg hfb]

/-- Witness for the amended C6: on a text with one bare transliterated
prefix and the entry SCI3, the fallback fires and splices the target over
that single occurrence. -/
theorem C6_witness :
    restoreEntry "एससीआई नहीं".data "SCI3".data "तीन".data = "एससीआई नहीं".data ∨
      ((isSub transSCI "एससीआई नहीं".data &&
          fallbackGuard "SCI3".data "एससीआई नहीं".data) = true ∧
        ∃ pre post, "एससीआई नहीं".data = pre ++ transSCI ++ post ∧
          restoreEntry "एससीआई नहीं".data "SCI3".data "तीन".data =
            pre ++ "तीन".data ++ post) :=
  C6_heuristic_amended.2 "एससीआई नहीं".data "SCI3".data "तीन".data
    (by decide) (by decide) (by decide)

/-- Claim C7, confirmed.  Per-unit failure recovery: translate with a
fallible engine equals translate with the engine that substitutes the
original placeholder-bearing unit on failure (the combined result is
restored before emission, by definition of translate), so a failed unit
contributes its own text and processing continues; and the structured
failure result arises exactly when every derivable unit is blank, which is
independent of the engine, so a single failed unit can never fail the
whole request. -/
theorem C7_per_unit_recovery (cleaner pp : List Char → List Char)
    (e : List Char → Option (List Char)) (text : List Char) :
    (translate cleaner pp e text = none ↔
      ∀ u ∈ split_into_units (extract_and_replace_terms (cleaner text)).1,
        pyStrip u = []) ∧
    translate cleaner pp e text =
      translate cleaner pp (fun s => some ((e s).getD s)) text :=
  ⟨translate_none_iff cleaner pp e text, translate_totalize cleaner pp e text⟩

/-- Witness for C7: on whitespace-only input the request fails as a
structured result. -/
theorem C7_witness : translate id id (fun _ => none) " ".data = none :=
  (C7_per_unit_recovery id id (fun _ => none) " ".data).1.mpr (by decide)

/-- Claim C8, confirmed.  A unit equal to exactly one placeholder token is
recognized by the placeholder-only check, is emitted directly (stripped in
translate, restored and post-processed in translate_stream), and is never
sent to the engine: both whole-request functions are invariant under any
change of the engine away from placeholder-only inputs. -/
theorem C8_placeholder_unit_bypass :
    (∀ s : List Char, isPlaceholderToken s = true → isPhOnly s = true) ∧
    (∀ (e : List Char → Option (List Char)) (tm : List (List Char × List Char))
        (pp : List Char → List Char) (u : List Char),
      isPlaceholderToken (pyStrip u) = true →
        processUnit e u = some (pyStrip u) ∧
        processUnitStream e tm pp u = some (pp (restore_terms (pyStrip u) tm))) ∧
    (∀ (cleaner pp : List Char → List Char)
        (e₁ e₂ : List Char → Option (List Char)) (text : List Char),
      (∀ s, isPhOnly (pyStrip s) = false → e₁ s = e₂ s) →
        translate cleaner pp e₁ text = translate cleaner pp e₂ text ∧
        translate_stream cleaner pp e₁ text = translate_stream cleaner pp e₂ text) := by
  refine ⟨fun s h => placeholderToken_isPhOnly h, ?_, ?_⟩
  · intro e tm pp u h
    have hph : isPhOnly (pyStrip u) = true := placeholderToken_isPhOnly h
    exact ⟨processUnit_bypass e u hph, processUnitStream_bypass e tm pp u hph⟩
  · intro cleaner pp e₁ e₂ text h
    exact ⟨translate_congr cleaner pp text h, translate_stream_congr cleaner pp text h⟩

/-- Witness for C8 at the concrete placeholder unit SCI7 with an engine
that always fails: the unit is emitted directly. -/
theorem C8_witness :
    processUnit (fun _ => none) "SCI7".data = some (pyStrip "SCI7".data) ∧
    processUnitStream (fun _ => none) [] id "SCI7".data =
      some (id (restore_terms (pyStrip "SCI7".data) [])) :=
  C8_placeholder_unit_bypass.2.1 (fun _ => none) [] id "SCI7".data (by decide)

/-- Counterexample to claim C9 as stated: the forward glossary maps both
principle and theory to the same rendering, so the reverse table, built by
inverting the dict, maps that rendering back to theory only; composing
forward then reverse is not the identity at principle. -/
theorem C9_reverse_lookup_not_id :
    ("principle", "सिद्धांत") ∈ ENGLISH_TO_HINDI_GLOSSARY ∧
    lookupDict HINDI_TO_ENGLISH_GLOSSARY "सिद्धांत" = some "theory" ∧
    (some "theory" : Option String) ≠ some "principle" :=
  ⟨by decide, by decide, by decide⟩

/-- Claim C9, amended.  The reverse lookup table maps the target rendering
of every glossary entry back to its source term, except for the single
entry principle, whose rendering is shared with the later entry theory
(dict inversion keeps the last writer). -/
theorem C9_reverse_lookup_amended :
    ∀ kv ∈ ENGLISH_TO_HINDI_GLOSSARY, kv.1 ≠ "principle" →
      lookupDict HINDI_TO_ENGLISH_GLOSSARY kv.2 = some kv.1 := by
  decide

/-- Witness for the amended C9 at the entry for photosynthesis. -/
theorem C9_witness :
    lookupDict HINDI_TO_ENGLISH_GLOSSARY "प्रकाश संश्लेषण" = some "photosynthesis" :=
  C9_reverse_lookup_amended ("photosynthesis", "प्रकाश संश्लेषण") (by decide) (by decide)

/-- Claim C10, confirmed.  In both translation loops, every unit whose
stripped text passes the code check (a single whitespace-delimited token
starting with the three characters S C I, whether or not it is a recorded
placeholder) bypasses the engine, for every engine, and is emitted
directly; in particular the plain word SCIENCE is carried end to end
through translate without the engine ever influencing the result. -/
theorem C10_sci_prefix_bypass :
    (∀ (e : List Char → Option (List Char)) (tm : List (List Char × List Char))
        (pp : List Char → List Char) (u : List Char),
      isPhOnly (pyStrip u) = true →
        processUnit e u = some (pyStrip u) ∧
        processUnitStream e tm pp u = some (pp (restore_terms (pyStrip u) tm))) ∧
    (∀ (e : List Char → Option (List Char)) (pp : List Char → List Char),
      translate id pp e "SCIENCE".data = some (pp "SCIENCE".data)) := by
  constructor
  · intro e tm pp u h
    exact ⟨processUnit_bypass e u h, processUnitStream_bypass e tm pp u h⟩
  · intro e pp
    have hext1 : (extract_and_replace_terms (id "SCIENCE".data)).1 = "SCIENCE".data := by
      decide
    have hext2 : (extract_and_replace_terms (id "SCIENCE".data)).2 = [] := by decide
    have hsplit : split_into_units "SCIENCE".data = ["SCIENCE".data] := by decide
    have hph : isPhOnly (pyStrip "SCIENCE".data) = true := by decide
    have hstrip : pyStrip "SCIENCE".data = "SCIENCE".data := by decide
    have hfm : (["SCIENCE".data] : List (List Char)).filterMap (processUnit e) =
        ["SCIENCE".data] := by
      rw [List.filterMap_cons]
      rw [processUnit_bypass e "SCIENCE".data hph, hstrip]
      rfl
    rw [translate_eq, hext1, hext2, hsplit, hfm]
    rw [if_neg (by simp), if_neg (by simp)]
    rfl

/-- Witness for C10 at the unit SCIENCE, which is not a placeholder of the
map, with an engine returning unrelated output: the output ignores the
engine. -/
theorem C10_witness :
    processUnit (fun _ => some "GARBAGE".data) "SCIENCE".data =
      some (pyStrip "SCIENCE".data) ∧
    processUnitStream (fun _ => some "GARBAGE".data) [] id "SCIENCE".data =
      some (id (restore_terms (pyStrip "SCIENCE".data) [])) :=
  C10_sci_prefix_bypass.1 (fun _ => some "GARBAGE".data) [] id "SCIENCE".data (by decide)

end MasterG
